import Mathlib

/-!
Verification of the `inv_pit` repository (`src/inv_pit/main.py`).

The source is one small stateful class `InversePIT` with four operations:
`fit_from_cdf`, `fit_from_pdf`, `transform_cdf`, `transform_pdf`, built on
three external numerical collaborators:
`scipy.integrate.cumulative_trapezoid` (with `initial=0`),
`scipy.interpolate.interp1d` (kind `"linear"`, `bounds_error=False`,
`fill_value="extrapolate"`), and `numpy.gradient` (`edge_order=2`).

Shallow embedding choices:
* one-dimensional float arrays are `List ℚ` (exact rational arithmetic; the
  dimension-1 invariant is intrinsic to the list model);
* Python exceptions are the `Except` monad with an explicit error type
  (`AssertionError` from the shape asserts is the spec's `InvalidInputShape`,
  the `RuntimeError` of an unfitted transform is the spec's `NotFittedError`,
  `cdf[-1]` on an empty array is `indexError`, and `valueError` covers both
  the input validation of `scipy.integrate.cumulative_trapezoid` — which,
  for 1-D `x`, raises `ValueError` unless `len(diff(x)) == len(y) - 1` over
  Python integers, so in particular on empty or length-mismatched inputs —
  and `numpy.gradient` on fewer than `edge_order + 1 = 3` points);
* the in-place mutation `cdf /= cdf[-1]` in `fit_from_cdf` is modelled by
  returning the post-call contents of the caller's `x` and `cdf` buffers
  alongside the new state (the other operations perform no in-place update
  of caller arrays: their `/=` targets are freshly allocated locals);
* `numpy.gradient` is computed over an IEEE-style value type `FloatVal`
  (finite rationals plus `pinf`, `ninf`, `nan`) because the code relies on
  silent division by zero producing non-finite sentinels under
  `numpy.errstate(all="ignore")`.  Zeros are unsigned in this model; every
  divisor in the gradient formulas is a product of forward differences,
  which is IEEE `+0` whenever it vanishes in the runs analysed here, so the
  unsigned model agrees with IEEE on those runs.
-/

attribute [local semireducible] Rat.inv Rat.mul Rat.add Rat.sub Rat.ofScientific

namespace InvPit

/-- Errors surfaced by the Python code. `invalidInputShape` is the
`AssertionError` of the shape asserts, `notFitted` the `RuntimeError` of
`transform_cdf`, `indexError` a negative index into an empty array,
`valueError` the error `numpy.gradient` raises on arrays shorter than
`edge_order + 1`. -/
inductive PitError
  | invalidInputShape
  | notFitted
  | indexError
  | valueError
deriving DecidableEq

/-- Absolute value on ℚ, written out so that the kernel can evaluate it
(the lattice-derived `|·|` does not reduce). -/
def ratAbs (q : ℚ) : ℚ := if q < 0 then -q else q

/-- `numpy.isclose(a, b)` with the default tolerances
`rtol = 1e-5`, `atol = 1e-8`: `|a - b| <= atol + rtol * |b|`. -/
def npIsclose (a b : ℚ) : Bool :=
  decide (ratAbs (a - b) ≤ 1 / 100000000 + 1 / 100000 * ratAbs b)

/-- The trapezoid areas `(x[i+1] - x[i]) * (y[i] + y[i+1]) / 2` of
consecutive samples. -/
def trapzTerms (y x : List ℚ) : List ℚ :=
  List.zipWith (fun xp yp => (xp.2 - xp.1) * (yp.1 + yp.2) / 2)
    (x.zip x.tail) (y.zip y.tail)

/-- The arithmetic core of `scipy.integrate.cumulative_trapezoid(y, x,
initial=0)` after its input validation has passed: the running sum of the
trapezoid areas, preceded by the anchor value `0`; same length as the input
for equal-length nonempty `y`, `x`. -/
def cumulative_trapezoid (y x : List ℚ) : List ℚ :=
  List.scanl (· + ·) 0 (trapzTerms y x)

/-- The full `scipy.integrate.cumulative_trapezoid(y, x, initial=0)` call
including its input validation: with 1-D `x` the routine builds
`d = diff(x)` and raises `ValueError` unless
`d.shape[axis] == y.shape[axis] - 1` over Python integers.  `len(diff(x))`
is the truncated subtraction `x.length - 1`, while `len(y) - 1` is exact
integer arithmetic, so empty `y` always raises (`len(y) - 1 = -1` against a
nonnegative diff length) and nonempty `y` requires matching lengths (up to
the `len(y) = 1`, `len(x) <= 1` corner, where both sides are `0`).  On
validated input the result is the running trapezoid sums. -/
def scipy_cumulative_trapezoid (y x : List ℚ) : Except PitError (List ℚ) :=
  if ((x.length - 1 : ℕ) : ℤ) = (y.length : ℤ) - 1 then
    .ok (cumulative_trapezoid y x)
  else .error .valueError

/-- State of a fitted `scipy.interpolate.interp1d`: the `(x, y)` knot pairs
after the constructor's stable sort of `x` with `y` reordered alongside
(`interp1d` uses `argsort(x, kind="mergesort")`; any stable sort computes
the same permutation, and the structurally recursive `insertionSort` below
is stable). -/
structure Interp1d where
  knots : List (ℚ × ℚ)
deriving DecidableEq

/-- `scipy.interpolate.interp1d(kx, ky, kind="linear", bounds_error=False,
fill_value="extrapolate")`: store the knots stably sorted by abscissa. -/
def interp1d (kx ky : List ℚ) : Interp1d :=
  ⟨List.insertionSort (fun p q => p.1 ≤ q.1) (kx.zip ky)⟩

/-- Evaluation of the stored linear interpolant at `v`, following
`interp1d._call_linear`: locate the segment with a left-biased binary search
clipped to `[1, n-1]` (which yields linear extrapolation outside the knot
range), then evaluate `slope * (v - x_lo) + y_lo`.  Knot counts below 2 are
never produced by the claims analysed here; they return a junk value. -/
def interpCall (m : Interp1d) (v : ℚ) : ℚ :=
  let ks := m.knots
  let n := ks.length
  if n < 2 then (ks.headD (0, 0)).2
  else
    let rank := ks.countP (fun p => decide (p.1 < v))
    let j := min (max rank 1) (n - 1)
    let lo := ks.getD (j - 1) (0, 0)
    let hi := ks.getD j (0, 0)
    (hi.2 - lo.2) / (hi.1 - lo.1) * (v - lo.1) + lo.2

/-- IEEE-style value: a finite rational, an infinity, or NaN.  Finite
arithmetic is exact (no rounding); the non-finite values follow the IEEE
propagation rules numpy implements, with unsigned zero. -/
inductive FloatVal
  | fin (q : ℚ)
  | pinf
  | ninf
  | nan
deriving DecidableEq

/-- Shorthand embedding of a rational as a finite float value. -/
def fv (q : ℚ) : FloatVal := .fin q

/-- IEEE addition on `FloatVal`. -/
def FloatVal.add : FloatVal → FloatVal → FloatVal
  | .fin a, .fin b => .fin (a + b)
  | .fin _, .pinf => .pinf
  | .fin _, .ninf => .ninf
  | .pinf, .fin _ => .pinf
  | .ninf, .fin _ => .ninf
  | .pinf, .pinf => .pinf
  | .ninf, .ninf => .ninf
  | .pinf, .ninf => .nan
  | .ninf, .pinf => .nan
  | .nan, _ => .nan
  | _, .nan => .nan

instance : Add FloatVal := ⟨FloatVal.add⟩

/-- IEEE multiplication on `FloatVal` (`0 * inf = nan`). -/
def FloatVal.mul : FloatVal → FloatVal → FloatVal
  | .fin a, .fin b => .fin (a * b)
  | .fin a, .pinf => if 0 < a then .pinf else if a < 0 then .ninf else .nan
  | .fin a, .ninf => if 0 < a then .ninf else if a < 0 then .pinf else .nan
  | .pinf, .fin b => if 0 < b then .pinf else if b < 0 then .ninf else .nan
  | .ninf, .fin b => if 0 < b then .ninf else if b < 0 then .pinf else .nan
  | .pinf, .pinf => .pinf
  | .pinf, .ninf => .ninf
  | .ninf, .pinf => .ninf
  | .ninf, .ninf => .pinf
  | .nan, _ => .nan
  | _, .nan => .nan

instance : Mul FloatVal := ⟨FloatVal.mul⟩

/-- IEEE division on `FloatVal` with unsigned zero: a finite quotient when
the divisor is nonzero, otherwise a signed infinity (or `nan` for `0/0`).
Only finite operands occur in this development (the gradient formulas divide
finite differences), so the remaining cases return `nan` unexercised. -/
def FloatVal.fdiv : FloatVal → FloatVal → FloatVal
  | .fin a, .fin b =>
      if b ≠ 0 then .fin (a / b)
      else if 0 < a then .pinf
      else if a < 0 then .ninf
      else .nan
  | _, _ => .nan

/-- Forward difference `x[j+1] - x[j]` read with default `0`, mirroring
`numpy.diff` on the coordinate array. -/
def npDiffAt (x : List ℚ) (j : ℕ) : ℚ := x.getD (j + 1) 0 - x.getD j 0

/-- `numpy.gradient`'s uniform-spacing reduction: the coordinate spacings
collapse to a scalar when all `n - 1` consecutive differences are equal. -/
def uniformSpacing (x : List ℚ) (n : ℕ) : Bool :=
  (List.range (n - 1)).all fun j => decide (npDiffAt x j = npDiffAt x 0)

/-- Interior second-order formula of `numpy.gradient` on a non-uniform grid:
`a*f0 + b*f1 + c*f2` with `a = -dx2/(dx1*(dx1+dx2))`,
`b = (dx2-dx1)/(dx1*dx2)`, `c = dx1/(dx2*(dx1+dx2))`. -/
def gradInterior (dx1 dx2 f0 f1 f2 : ℚ) : FloatVal :=
  (fv (-dx2)).fdiv (fv (dx1 * (dx1 + dx2))) * fv f0 +
    (fv (dx2 - dx1)).fdiv (fv (dx1 * dx2)) * fv f1 +
    (fv dx1).fdiv (fv (dx2 * (dx1 + dx2))) * fv f2

/-- Left-edge second-order formula of `numpy.gradient` on a non-uniform
grid, with `dx1 = dx[0]`, `dx2 = dx[1]`. -/
def gradLeft (dx1 dx2 f0 f1 f2 : ℚ) : FloatVal :=
  (fv (-(2 * dx1 + dx2))).fdiv (fv (dx1 * (dx1 + dx2))) * fv f0 +
    (fv (dx1 + dx2)).fdiv (fv (dx1 * dx2)) * fv f1 +
    (fv (-dx1)).fdiv (fv (dx2 * (dx1 + dx2))) * fv f2

/-- Right-edge second-order formula of `numpy.gradient` on a non-uniform
grid, with `dx1 = dx[-2]`, `dx2 = dx[-1]`. -/
def gradRight (dx1 dx2 f0 f1 f2 : ℚ) : FloatVal :=
  (fv dx2).fdiv (fv (dx1 * (dx1 + dx2))) * fv f0 +
    (fv (-(dx2 + dx1))).fdiv (fv (dx1 * dx2)) * fv f1 +
    (fv (2 * dx2 + dx1)).fdiv (fv (dx2 * (dx1 + dx2))) * fv f2

/-- Entry `i` of `numpy.gradient(f, x, edge_order=2)` for a 1-d coordinate
array `x` of the same length `n = f.length ≥ 3`: uniform-spacing central /
one-sided differences when all spacings agree, otherwise the non-uniform
second-order formulas.  All divisions are IEEE (`FloatVal.fdiv`); numpy
computes the finite numerators and denominators exactly as written before
dividing. -/
def gradientAt (f x : List ℚ) (i : ℕ) : FloatVal :=
  let n := f.length
  let F := fun j => f.getD j 0
  let dx := fun j => npDiffAt x j
  if uniformSpacing x n then
    let h := dx 0
    if i = 0 then
      (fv (-3 / 2)).fdiv (fv h) * fv (F 0) + (fv 2).fdiv (fv h) * fv (F 1) +
        (fv (-1 / 2)).fdiv (fv h) * fv (F 2)
    else if i = n - 1 then
      (fv (1 / 2)).fdiv (fv h) * fv (F (n - 3)) +
        (fv (-2)).fdiv (fv h) * fv (F (n - 2)) +
        (fv (3 / 2)).fdiv (fv h) * fv (F (n - 1))
    else (fv (F (i + 1) - F (i - 1))).fdiv (fv (2 * h))
  else
    if i = 0 then gradLeft (dx 0) (dx 1) (F 0) (F 1) (F 2)
    else if i = n - 1 then
      gradRight (dx (n - 3)) (dx (n - 2)) (F (n - 3)) (F (n - 2)) (F (n - 1))
    else gradInterior (dx (i - 1)) (dx i) (F (i - 1)) (F i) (F (i + 1))

/-- The full output array of `numpy.gradient(f, x, edge_order=2)`. -/
def gradientList (f x : List ℚ) : List FloatVal :=
  (List.range f.length).map (gradientAt f x)

/-- `numpy.gradient(f, x, edge_order=2)` as called by `transform_pdf`:
raises `ValueError` when fewer than `edge_order + 1 = 3` samples are given,
otherwise returns the same-length array of derivative estimates. -/
def np_gradient (f x : List ℚ) : Except PitError (List FloatVal) :=
  if f.length < 3 then .error .valueError else .ok (gradientList f x)

/-- The `InversePIT` class state: the `_cdf_map` attribute, `None` until a
fit succeeds. -/
structure InversePIT where
  _cdf_map : Option Interp1d := none
deriving DecidableEq

/-- A freshly constructed `InversePIT()` (class attribute `_cdf_map = None`). -/
def InversePIT.new : InversePIT := {}

/-- The CDF `fit_from_pdf` and `transform_pdf` build from a sampled PDF
once the integration's input validation has passed:
`cdf = cumulative_trapezoid(pdf, x, initial=0); cdf /= cdf[-1]`. -/
def normalizedCdf (pdf x : List ℚ) : List ℚ :=
  (cumulative_trapezoid pdf x).map
    (· / (cumulative_trapezoid pdf x).getLastD 0)

/-- Decidable equality for `Except`, so that concrete runs of the embedded
operations can be settled by `decide`. -/
instance {ε α : Type} [DecidableEq ε] [DecidableEq α] :
    DecidableEq (Except ε α) := fun a b =>
  match a, b with
  | .error e, .error f =>
    if h : e = f then .isTrue (congrArg Except.error h)
    else .isFalse (fun hc => h (Except.error.inj hc))
  | .error _, .ok _ => .isFalse Except.noConfusion
  | .ok _, .error _ => .isFalse Except.noConfusion
  | .ok a, .ok b =>
    if h : a = b then .isTrue (congrArg Except.ok h)
    else .isFalse (fun hc => h (Except.ok.inj hc))

/-- `InversePIT.transform_cdf(self, x, cdf)`: raise `NotFittedError` when
unfitted, else return `(self._cdf_map(cdf), cdf)`.  The `x` argument is
unused by the source.  No caller array is mutated. -/
def transform_cdf (self : InversePIT) (x cdf : List ℚ) :
    Except PitError (List ℚ × List ℚ) :=
  match self._cdf_map with
  | none => .error .notFitted
  | some m =>
    let _ := x
    .ok (cdf.map (interpCall m), cdf)

/-- `InversePIT.transform_pdf(self, x, pdf)`: integrate the PDF with
`cumulative_trapezoid(pdf, x, initial=0)` — whose input validation runs
first, so its `ValueError` fires before the not-fitted guard of the inner
`transform_cdf` call — then normalize the freshly allocated result by its
final value, transform that CDF, and differentiate the (unchanged) CDF
values with respect to the transformed coordinates with
`numpy.gradient(..., edge_order=2)` under `numpy.errstate(all="ignore")`.
The caller's arrays are not mutated. -/
def transform_pdf (self : InversePIT) (x pdf : List ℚ) :
    Except PitError (List ℚ × List FloatVal) := do
  let t ← scipy_cumulative_trapezoid pdf x
  let r ← transform_cdf self x (t.map (· / t.getLastD 0))
  let g ← np_gradient r.2 r.1
  return (r.1, g)

/-- `InversePIT.fit_from_cdf(self, x, cdf, interp_kind="linear")`: assert
the shapes agree (`InvalidInputShape` otherwise; 1-dimensionality is
intrinsic to the list model), then — only when `cdf[-1]` is not
`numpy.isclose` to 1 — divide the caller's `cdf` array by its last entry in
place, and install `interp1d(cdf, x)`.  The result carries the new state
and the post-call contents of the caller's `x` and `cdf` buffers. -/
def fit_from_cdf (self : InversePIT) (x cdf : List ℚ) :
    Except PitError (InversePIT × List ℚ × List ℚ) :=
  let _ := self
  if x.length ≠ cdf.length then .error .invalidInputShape
  else
    match cdf.getLast? with
    | none => .error .indexError
    | some last =>
      let cdf' := if npIsclose last 1 then cdf else cdf.map (· / last)
      .ok ({ _cdf_map := some (interp1d cdf' x) }, x, cdf')

/-- The contents of the caller's `cdf` buffer after `fit_from_cdf`'s
optional in-place normalization: unchanged when the final value is close
to 1, otherwise divided entrywise by the final value. -/
def postCdf (cdf : List ℚ) : List ℚ :=
  if npIsclose (cdf.getLastD 0) 1 then cdf
  else cdf.map (· / cdf.getLastD 0)

/-- `InversePIT.fit_from_pdf(self, x, pdf, interp_kind="linear")`: assert
the shapes agree (the assert runs before the integration, so
`InvalidInputShape` wins on mismatched lengths), integrate the PDF with
`cumulative_trapezoid(..., initial=0)` — whose validation can still raise
`ValueError` on equal-length empty input — into a freshly allocated CDF,
normalize that local array by its final value, and delegate to
`fit_from_cdf`.  The caller's `x` and `pdf` buffers are returned
unchanged. -/
def fit_from_pdf (self : InversePIT) (x pdf : List ℚ) :
    Except PitError (InversePIT × List ℚ × List ℚ) :=
  if x.length ≠ pdf.length then .error .invalidInputShape
  else do
    let t ← scipy_cumulative_trapezoid pdf x
    let r ← fit_from_cdf self x (t.map (· / t.getLastD 0))
    return (r.1, x, pdf)

/-! ### Basic facts about the embedded collaborators -/

/-- `ratAbs` agrees with the ambient absolute value. -/
theorem ratAbs_eq_abs (q : ℚ) : ratAbs q = |q| := by
  unfold ratAbs
  rcases lt_or_le q 0 with h | h
  · rw [if_pos h, abs_of_neg h]
  · rw [if_neg (not_lt.mpr h), abs_of_nonneg h]

/-- A list equal to its own map has the mapped function fix every member. -/
theorem map_eq_self_mem {α : Type} {f : α → α} :
    ∀ {l : List α}, l.map f = l → ∀ x ∈ l, f x = x := by
  intro l
  induction l with
  | nil => intro _ x hx; cases hx
  | cons a t ih =>
    intro h x hx
    rw [List.map_cons, List.cons.injEq] at h
    rcases List.mem_cons.mp hx with rfl | hx2
    · exact h.1
    · exact ih h.2 x hx2

/-- `cumulative_trapezoid` always returns at least the anchor entry `0`. -/
theorem cumulative_trapezoid_ne_nil (y x : List ℚ) :
    cumulative_trapezoid y x ≠ [] := by
  unfold cumulative_trapezoid
  cases trapzTerms y x <;> simp [List.scanl]

/-- On equal-length nonempty inputs, `cumulative_trapezoid` returns an array
of the same length. -/
theorem cumulative_trapezoid_length (y x : List ℚ) (h : y.length = x.length)
    (h1 : 1 ≤ y.length) : (cumulative_trapezoid y x).length = y.length := by
  unfold cumulative_trapezoid trapzTerms
  rw [List.length_scanl, List.length_zipWith, List.length_zip, List.length_zip,
    List.length_tail, List.length_tail, ← h]
  omega

/-- On equal-length nonempty inputs, the normalized CDF built from a PDF has
the same length as the PDF. -/
theorem normalizedCdf_length (pdf x : List ℚ) (h : pdf.length = x.length)
    (h1 : 1 ≤ pdf.length) : (normalizedCdf pdf x).length = pdf.length := by
  unfold normalizedCdf
  rw [List.length_map, cumulative_trapezoid_length pdf x h h1]

/-- When the trapezoidal integral's final value is nonzero, the normalized
CDF built from a PDF ends at exactly 1. -/
theorem normalizedCdf_getLast (pdf x : List ℚ)
    (hT : (cumulative_trapezoid pdf x).getLastD 0 ≠ 0) :
    (normalizedCdf pdf x).getLastD 0 = 1 := by
  have hne := cumulative_trapezoid_ne_nil pdf x
  rcases hlast : (cumulative_trapezoid pdf x).getLast? with _ | T
  · exact absurd (List.getLast?_eq_none_iff.mp hlast) hne
  have hTD : (cumulative_trapezoid pdf x).getLastD 0 = T := by
    rw [List.getLastD_eq_getLast?, hlast, Option.getD_some]
  unfold normalizedCdf
  rw [hTD, List.getLastD_eq_getLast?, List.getLast?_map, hlast]
  simpa using div_self (hTD ▸ hT)

/-- A nonempty list's `getLast?` is its `getLastD`. -/
theorem getLast?_eq_getLastD {α : Type} (l : List α) (hne : l ≠ []) (d : α) :
    l.getLast? = some (l.getLastD d) := by
  rcases h : l.getLast? with _ | a
  · exact absurd (List.getLast?_eq_none_iff.mp h) hne
  · rw [List.getLastD_eq_getLast?, h, Option.getD_some]

/-- `getLastD 0` commutes with mapping a zero-preserving function. -/
theorem getLastD_map_zero (f : ℚ → ℚ) (hf : f 0 = 0) (l : List ℚ) :
    (l.map f).getLastD 0 = f (l.getLastD 0) := by
  rw [List.getLastD_eq_getLast?, List.getLastD_eq_getLast?, List.getLast?_map]
  rcases l.getLast? with _ | a
  · simpa using hf.symm
  · simp

/-- A nonzero final trapezoidal integral forces both inputs nonempty. -/
theorem trapz_last_ne_zero_nonempty (pdf x : List ℚ)
    (hT : (cumulative_trapezoid pdf x).getLastD 0 ≠ 0) :
    1 ≤ pdf.length ∧ 1 ≤ x.length := by
  constructor
  · rcases pdf with _ | ⟨a, t⟩
    · exact absurd (by simp [cumulative_trapezoid, trapzTerms, List.scanl]) hT
    · simp
  · rcases x with _ | ⟨a, t⟩
    · exact absurd (by simp [cumulative_trapezoid, trapzTerms, List.scanl]) hT
    · simp

/-- `numpy.isclose(1, 1)` holds. -/
theorem npIsclose_one_one : npIsclose 1 1 = true := by decide

/-- Closed form of any successful `fit_from_cdf` call: it installs the
interpolant over the post-normalization CDF and hands back the caller's
(possibly mutated) buffers. -/
theorem fit_from_cdf_run (st : InversePIT) (x cdf : List ℚ)
    (hlen : x.length = cdf.length) (hne : cdf ≠ []) :
    fit_from_cdf st x cdf =
      .ok (⟨some (interp1d (postCdf cdf) x)⟩, x, postCdf cdf) := by
  unfold fit_from_cdf postCdf
  rw [if_neg (by omega), getLast?_eq_getLastD cdf hne 0]

/-- On an already normalized CDF (final value exactly 1) the fit changes
nothing. -/
theorem postCdf_of_last_one {c : List ℚ} (hlast : c.getLastD 0 = 1) :
    postCdf c = c := by
  unfold postCdf
  rw [hlast, npIsclose_one_one, if_pos rfl]

/-- Closed form of a `fit_from_cdf` call on an already normalized CDF of the
right length: no renormalization happens and the interpolant over the given
knots is installed. -/
theorem fit_from_cdf_run_normalized (st : InversePIT) (x c : List ℚ)
    (hlen : x.length = c.length) (hne : c ≠ [])
    (hlast : c.getLastD 0 = 1) :
    fit_from_cdf st x c = .ok (⟨some (interp1d c x)⟩, x, c) := by
  rw [fit_from_cdf_run st x c hlen hne, postCdf_of_last_one hlast]

/-- On equal-length nonempty inputs the integration's validation passes and
the checked call returns the arithmetic core. -/
theorem scipy_cumulative_trapezoid_ok (y x : List ℚ)
    (hlen : x.length = y.length) (h1 : 1 ≤ y.length) :
    scipy_cumulative_trapezoid y x = .ok (cumulative_trapezoid y x) := by
  unfold scipy_cumulative_trapezoid
  rw [if_pos (by omega)]

/-- The normalization `fit_from_pdf` and `transform_pdf` apply to the
integration result is exactly `normalizedCdf`. -/
theorem map_div_last_eq_normalizedCdf (pdf x : List ℚ) :
    (cumulative_trapezoid pdf x).map
      (· / (cumulative_trapezoid pdf x).getLastD 0) = normalizedCdf pdf x :=
  rfl

/-- `fit_from_pdf` propagates a validation error of the integration step
(reachable only for equal-length empty inputs, the assert having already
passed). -/
theorem fit_from_pdf_check_error (st : InversePIT) (x pdf : List ℚ)
    (e : PitError) (hchk : scipy_cumulative_trapezoid pdf x = .error e)
    (hlen : ¬ x.length ≠ pdf.length) :
    fit_from_pdf st x pdf = .error e := by
  unfold fit_from_pdf
  rw [if_neg hlen, hchk]
  rfl

/-- Once the assert and the integration's validation have passed,
`fit_from_pdf` is the delegated `fit_from_cdf` call on the normalized
integration result, repackaged with the caller's buffers. -/
theorem fit_from_pdf_bind (st : InversePIT) (x pdf t : List ℚ)
    (hchk : scipy_cumulative_trapezoid pdf x = .ok t)
    (hlen : ¬ x.length ≠ pdf.length) :
    fit_from_pdf st x pdf =
      (fit_from_cdf st x (t.map (· / t.getLastD 0))).map
        (fun r => (r.1, x, pdf)) := by
  unfold fit_from_pdf
  rw [if_neg hlen, hchk]
  show Except.bind _ _ = _
  rw [Except.bind]
  rcases hfc : fit_from_cdf st x (t.map (· / t.getLastD 0)) with e | r
  · rfl
  · rfl

/-- `transform_pdf` propagates a validation error of the integration step,
which runs before the not-fitted guard. -/
theorem transform_pdf_check_error (self : InversePIT) (x pdf : List ℚ)
    (e : PitError) (hchk : scipy_cumulative_trapezoid pdf x = .error e) :
    transform_pdf self x pdf = .error e := by
  unfold transform_pdf
  rw [hchk]
  rfl

/-- Once the integration's validation has passed, `transform_pdf` is the
transform-then-differentiate pipeline on the normalized integration
result. -/
theorem transform_pdf_bind (self : InversePIT) (x pdf t : List ℚ)
    (hchk : scipy_cumulative_trapezoid pdf x = .ok t) :
    transform_pdf self x pdf = do
      let r ← transform_cdf self x (t.map (· / t.getLastD 0))
      let g ← np_gradient r.2 r.1
      return (r.1, g) := by
  unfold transform_pdf
  rw [hchk]
  rfl

/-- Closed form of a successful `fit_from_pdf` call: it installs the
interpolant over the normalized trapezoidal CDF and leaves the caller's
buffers unchanged. -/
theorem fit_from_pdf_run (st : InversePIT) (x pdf : List ℚ)
    (hlen : x.length = pdf.length)
    (hT : (cumulative_trapezoid pdf x).getLastD 0 ≠ 0) :
    fit_from_pdf st x pdf =
      .ok (⟨some (interp1d (normalizedCdf pdf x) x)⟩, x, pdf) := by
  have hp1 := (trapz_last_ne_zero_nonempty pdf x hT).1
  have hlenn : x.length = (normalizedCdf pdf x).length := by
    rw [normalizedCdf_length pdf x (hlen.symm) hp1, hlen]
  have hne : normalizedCdf pdf x ≠ [] := by
    have := normalizedCdf_length pdf x (hlen.symm) hp1
    intro hcon
    rw [hcon] at this
    simp at this
    omega
  rw [fit_from_pdf_bind st x pdf (cumulative_trapezoid pdf x)
      (scipy_cumulative_trapezoid_ok pdf x hlen hp1) (by omega),
    map_div_last_eq_normalizedCdf,
    fit_from_cdf_run_normalized st x (normalizedCdf pdf x) hlenn hne
      (normalizedCdf_getLast pdf x hT)]
  rfl

/-- Closed form of a `transform_pdf` call on a fitted mapper with
equal-length inputs of at least `edge_order + 1 = 3` samples: the
integration's validation passes, the normalized CDF is mapped through the
stored interpolant, and the gradient stage succeeds. -/
theorem transform_pdf_run (m : InversePIT) (mp : Interp1d)
    (hm : m._cdf_map = some mp) (x pdf : List ℚ)
    (hlen : x.length = pdf.length) (h3 : 3 ≤ pdf.length) :
    transform_pdf m x pdf =
      .ok ((normalizedCdf pdf x).map (interpCall mp),
        gradientList (normalizedCdf pdf x)
          ((normalizedCdf pdf x).map (interpCall mp))) := by
  have hp1 : 1 ≤ pdf.length := by omega
  have hcl : (normalizedCdf pdf x).length = pdf.length :=
    normalizedCdf_length pdf x hlen.symm hp1
  have ht : transform_cdf m x (normalizedCdf pdf x) =
      .ok ((normalizedCdf pdf x).map (interpCall mp),
        normalizedCdf pdf x) := by
    unfold transform_cdf
    rw [hm]
  have hg : np_gradient (normalizedCdf pdf x)
      ((normalizedCdf pdf x).map (interpCall mp)) =
      .ok (gradientList (normalizedCdf pdf x)
        ((normalizedCdf pdf x).map (interpCall mp))) := by
    unfold np_gradient
    rw [if_neg (by omega)]
  rw [transform_pdf_bind m x pdf (cumulative_trapezoid pdf x)
      (scipy_cumulative_trapezoid_ok pdf x hlen hp1),
    map_div_last_eq_normalizedCdf, ht]
  show Except.bind _ _ = _
  rw [Except.bind]
  dsimp only
  rw [hg]
  rfl

/-! ### C1: shape guard -/

/-- C1 (counterexample): the claim says every fit or transform operation
raises `InvalidInputShape` on mismatched shapes, but `transform_cdf` never
validates shapes: on a fitted mapper with `x` of length 1 and `cdf` of
length 3 it returns successfully. -/
theorem c1_transform_no_shape_guard :
    ([(5 : ℚ)].length ≠ ([0, 1/2, 1] : List ℚ).length) ∧
    transform_cdf ⟨some (interp1d [0, 1] [0, 1])⟩ [5] [0, 1/2, 1] =
      .ok ([0, 1/2, 1], [0, 1/2, 1]) := by
  exact ⟨by decide, by decide⟩

/-- C1 (amended): only the fit entry points validate shapes — `fit_from_cdf`
and `fit_from_pdf` raise `InvalidInputShape` whenever `x` and the dependent
array differ in length (1-dimensionality being intrinsic to the list model);
the transform operations perform no such validation. -/
theorem c1_fit_shape_guard (st : InversePIT) (x y : List ℚ)
    (h : x.length ≠ y.length) :
    fit_from_cdf st x y = .error .invalidInputShape ∧
    fit_from_pdf st x y = .error .invalidInputShape := by
  constructor
  · unfold fit_from_cdf; rw [if_pos h]
  · unfold fit_from_pdf; rw [if_pos h]

/-- C1 (witness): the amended shape guard fires on concrete mismatched
arrays. -/
theorem c1_fit_shape_guard_witness :
    fit_from_cdf .new [0] [0, 1] = .error .invalidInputShape ∧
    fit_from_pdf .new [0] [0, 1] = .error .invalidInputShape :=
  c1_fit_shape_guard .new [0] [0, 1] (by decide)

/-! ### C2: not-fitted guard (amended) -/

/-- C2 (counterexample): the claim says any `transform_pdf` call on a fresh
instance raises `NotFittedError`, but the integration runs before the
not-fitted guard: with mismatched-length arguments the input validation of
`cumulative_trapezoid` raises `ValueError` — a different error — so the
guard is never reached. -/
theorem c2_mismatched_args_valueerror :
    transform_pdf InversePIT.new [0, 1] [1, 1, 1] = .error .valueError ∧
    PitError.valueError ≠ PitError.notFitted := by
  exact ⟨by decide, by decide⟩

/-- C2 (amended): on a freshly constructed mapper (whose `_cdf_map` is
`None`), any `transform_cdf` call raises `NotFittedError`; a
`transform_pdf` call raises `NotFittedError` whenever its inputs have equal
lengths and are nonempty (then the integration validates and the guard
fires before the gradient stage), while on inputs failing the integration's
validation — empty arrays, or `len(diff(x)) != len(pdf) - 1` — it raises
that validation's `ValueError` instead. -/
theorem c2_not_fitted (x cdf x2 pdf x3 pdf3 : List ℚ)
    (h : x2.length = pdf.length) (hne : pdf ≠ [])
    (h3 : ((x3.length - 1 : ℕ) : ℤ) ≠ (pdf3.length : ℤ) - 1) :
    transform_cdf InversePIT.new x cdf = .error .notFitted ∧
    transform_pdf InversePIT.new x2 pdf = .error .notFitted ∧
    transform_pdf InversePIT.new x3 pdf3 = .error .valueError := by
  refine ⟨rfl, ?_, ?_⟩
  · have h1 : 1 ≤ pdf.length := List.length_pos.mpr hne
    rw [transform_pdf_bind InversePIT.new x2 pdf
      (cumulative_trapezoid pdf x2)
      (scipy_cumulative_trapezoid_ok pdf x2 h h1)]
    rfl
  · exact transform_pdf_check_error InversePIT.new x3 pdf3 .valueError
      (by unfold scipy_cumulative_trapezoid; rw [if_neg h3])

/-- C2 (witness): the amended statement at concrete inputs — both
not-fitted raises on a fresh instance, plus the `ValueError` regime at
mismatched lengths. -/
theorem c2_not_fitted_witness :
    transform_cdf InversePIT.new [0, 1] [0, 1] = .error .notFitted ∧
    transform_pdf InversePIT.new [0, 1] [1, 1] = .error .notFitted ∧
    transform_pdf InversePIT.new [0] [1, 1, 1] = .error .valueError :=
  c2_not_fitted [0, 1] [0, 1] [0, 1] [1, 1] [0] [1, 1, 1] rfl
    (by decide) (by decide)

/-! ### C8: transform_cdf ignores its x argument -/

/-- C8: on a fitted mapper, `transform_cdf` returns identical results for
any two `x` arguments — the output depends only on the fitted state and the
`cdf` argument (the source never reads `x`). -/
theorem c8_transform_cdf_ignores_x (m : InversePIT) (mp : Interp1d)
    (hm : m._cdf_map = some mp) (x1 x2 cdf : List ℚ) :
    transform_cdf m x1 cdf = transform_cdf m x2 cdf := by
  unfold transform_cdf
  rw [hm]

/-- C8 (witness): concrete fitted mapper, two different `x` arrays, equal
outputs. -/
theorem c8_transform_cdf_ignores_x_witness :
    transform_cdf ⟨some (interp1d [0, 1] [0, 1])⟩ [7, 8] [0, 1/2, 1] =
    transform_cdf ⟨some (interp1d [0, 1] [0, 1])⟩ [] [0, 1/2, 1] :=
  c8_transform_cdf_ignores_x ⟨some (interp1d [0, 1] [0, 1])⟩
    (interp1d [0, 1] [0, 1]) rfl [7, 8] [] [0, 1/2, 1]

/-! ### C3: fit_from_pdf delegates to fit_from_cdf on the normalized CDF -/

/-- C3: for valid input (matching lengths, nonzero trapezoidal mass),
`fit_from_pdf x pdf` installs exactly the mapping `fit_from_cdf x c`
installs, where `c` is the cumulative trapezoidal integral of the PDF
anchored at 0 and divided by its final value (`normalizedCdf`); hence any
fixed transform query yields identical outputs after either fit. -/
theorem c3_fit_from_pdf_equiv (st st2 : InversePIT) (x pdf : List ℚ)
    (hlen : x.length = pdf.length)
    (hT : (cumulative_trapezoid pdf x).getLastD 0 ≠ 0) :
    ((fit_from_pdf st x pdf).map Prod.fst =
      (fit_from_cdf st2 x (normalizedCdf pdf x)).map Prod.fst) ∧
    ∀ xq cq,
      (fit_from_pdf st x pdf).map (fun r => transform_cdf r.1 xq cq) =
      (fit_from_cdf st2 x (normalizedCdf pdf x)).map
        (fun r => transform_cdf r.1 xq cq) := by
  have hp1 := (trapz_last_ne_zero_nonempty pdf x hT).1
  have hlenn : x.length = (normalizedCdf pdf x).length := by
    rw [normalizedCdf_length pdf x (hlen.symm) hp1, hlen]
  have hne : normalizedCdf pdf x ≠ [] := by
    have hl := normalizedCdf_length pdf x (hlen.symm) hp1
    intro hcon
    rw [hcon] at hl
    simp at hl
    omega
  rw [fit_from_pdf_run st x pdf hlen hT,
    fit_from_cdf_run_normalized st2 x (normalizedCdf pdf x) hlenn hne
      (normalizedCdf_getLast pdf x hT)]
  exact ⟨rfl, fun xq cq => rfl⟩

/-- C3 (witness): flat PDF on three points; both fits install the same
interpolant. -/
theorem c3_fit_from_pdf_equiv_witness :
    ((cumulative_trapezoid [1, 1, 1] [0, 1, 2]).getLastD 0 ≠ 0) ∧
    ((fit_from_pdf .new [0, 1, 2] [1, 1, 1]).map Prod.fst =
      (fit_from_cdf .new [0, 1, 2]
        (normalizedCdf [1, 1, 1] [0, 1, 2])).map Prod.fst) :=
  ⟨by decide,
    (c3_fit_from_pdf_equiv .new .new [0, 1, 2] [1, 1, 1] rfl (by decide)).1⟩

/-! ### C5: normalization invariant (amended) -/

/-- C5 (amended): provided the relevant final value is nonzero (the input
CDF's last entry for `fit_from_cdf`, the trapezoidal integral's last entry
for `fit_from_pdf`), every successful fit stores an interpolant whose
construction CDF ends at 1 within `numpy.isclose` tolerance (exactly 1
whenever renormalization ran).  With a zero final value the fit still
succeeds but the stored CDF does not end near 1 (`c5_zero_final_cdf`). -/
theorem c5_normalization :
    (∀ st x cdf st' px pcdf, cdf.getLastD 0 ≠ 0 →
      fit_from_cdf st x cdf = .ok (st', px, pcdf) →
      st'._cdf_map = some (interp1d pcdf px) ∧
        npIsclose (pcdf.getLastD 0) 1 = true) ∧
    (∀ st x pdf r, (cumulative_trapezoid pdf x).getLastD 0 ≠ 0 →
      fit_from_pdf st x pdf = .ok r →
      r.1._cdf_map = some (interp1d (normalizedCdf pdf x) x) ∧
        (normalizedCdf pdf x).getLastD 0 = 1) := by
  constructor
  · intro st x cdf st' px pcdf hnz hfit
    have hne : cdf ≠ [] := by
      intro hcon
      rw [hcon] at hnz
      exact hnz rfl
    have hlen : x.length = cdf.length := by
      unfold fit_from_cdf at hfit
      by_contra hcon
      rw [if_pos hcon] at hfit
      exact absurd hfit (by simp)
    rw [fit_from_cdf_run st x cdf hlen hne] at hfit
    have h := Except.ok.inj hfit
    have h1 : st' = ⟨some (interp1d (postCdf cdf) x)⟩ :=
      (congrArg Prod.fst h).symm
    have h2 : px = x := (congrArg (fun r => r.2.1) h).symm
    have h3 : pcdf = postCdf cdf := (congrArg (fun r => r.2.2) h).symm
    refine ⟨by rw [h1, h2, h3], ?_⟩
    rw [h3]
    unfold postCdf
    rcases hcl : npIsclose (cdf.getLastD 0) 1 with _ | _
    · rw [if_neg (by simp),
        getLastD_map_zero (fun a => a / cdf.getLastD 0) (zero_div _) cdf,
        div_self hnz]
      exact npIsclose_one_one
    · rw [if_pos rfl]
      exact hcl
  · intro st x pdf r hT hfit
    have hlen : x.length = pdf.length := by
      unfold fit_from_pdf at hfit
      by_contra hcon
      rw [if_pos hcon] at hfit
      exact absurd hfit (by simp)
    rw [fit_from_pdf_run st x pdf hlen hT] at hfit
    obtain rfl := Except.ok.inj hfit
    exact ⟨rfl, normalizedCdf_getLast pdf x hT⟩

/-- C5 (witness): `fit_from_cdf` on an unnormalized CDF (final value 2)
stores a CDF ending exactly at 1, and `fit_from_pdf` on a flat PDF uses a
normalized CDF ending exactly at 1. -/
theorem c5_normalization_witness :
    (([0, 1, 2] : List ℚ).getLastD 0 ≠ 0) ∧
    ((cumulative_trapezoid [1, 1, 1] [0, 1, 2]).getLastD 0 ≠ 0) ∧
    npIsclose ((postCdf [0, 1, 2]).getLastD 0) 1 = true ∧
    (normalizedCdf [1, 1, 1] [0, 1, 2]).getLastD 0 = 1 :=
  ⟨by decide, by decide,
    (c5_normalization.1 .new [0, 1, 2] [0, 1, 2]
      ⟨some (interp1d (postCdf [0, 1, 2]) [0, 1, 2])⟩ [0, 1, 2]
      (postCdf [0, 1, 2]) (by decide) (by decide)).2,
    (c5_normalization.2 .new [0, 1, 2] [1, 1, 1]
      (⟨some (interp1d (normalizedCdf [1, 1, 1] [0, 1, 2]) [0, 1, 2])⟩,
        [0, 1, 2], [1, 1, 1]) (by decide) (by decide)).2⟩

/-! ### C9: in-place mutation of the caller's cdf array -/

/-- C9: when `fit_from_cdf` runs with a CDF whose final value is not close
to 1 (and which has some nonzero entry, so the rescaling is observable in
exact arithmetic), the caller's `cdf` buffer comes back divided entrywise
by its original last value — an observable change — while `x` is untouched;
and `fit_from_pdf` (like the transforms, which are pure in this model
because their `/=` targets are freshly allocated) leaves its caller's
buffers unchanged. -/
theorem c9_fit_from_cdf_mutates (st : InversePIT) (x cdf : List ℚ)
    (st' : InversePIT) (px pcdf : List ℚ)
    (hni : npIsclose (cdf.getLastD 0) 1 = false)
    (hnz : ∃ q ∈ cdf, q ≠ 0)
    (hfit : fit_from_cdf st x cdf = .ok (st', px, pcdf)) :
    pcdf = cdf.map (· / cdf.getLastD 0) ∧ px = x ∧ pcdf ≠ cdf ∧
    (∀ st2 x2 pdf2 r, fit_from_pdf st2 x2 pdf2 = .ok r →
      r.2.1 = x2 ∧ r.2.2 = pdf2) := by
  obtain ⟨q, hq, hq0⟩ := hnz
  have hne : cdf ≠ [] := by
    intro hcon; rw [hcon] at hq; cases hq
  have hlen : x.length = cdf.length := by
    unfold fit_from_cdf at hfit
    by_contra hcon
    rw [if_pos hcon] at hfit
    exact absurd hfit (by simp)
  rw [fit_from_cdf_run st x cdf hlen hne] at hfit
  have h := Except.ok.inj hfit
  have h2 : px = x := (congrArg (fun r => r.2.1) h).symm
  have h3 : pcdf = postCdf cdf := (congrArg (fun r => r.2.2) h).symm
  have hpost : postCdf cdf = cdf.map (· / cdf.getLastD 0) := by
    unfold postCdf
    rw [if_neg (by rw [hni]; simp)]
  refine ⟨by rw [h3, hpost], h2, ?_, ?_⟩
  · rw [h3, hpost]
    intro heq
    have hfix := map_eq_self_mem heq q hq
    rcases eq_or_ne (cdf.getLastD 0) 0 with hL | hL
    · rw [hL, div_zero] at hfix
      exact hq0 hfix.symm
    · have hone : cdf.getLastD 0 = 1 := by
        rw [div_eq_iff hL] at hfix
        have h' : q * 1 = q * cdf.getLastD 0 := by
          rw [mul_one]
          exact hfix
        exact (mul_left_cancel₀ hq0 h').symm
      rw [hone, npIsclose_one_one] at hni
      simp at hni
  · intro st2 x2 pdf2 r hfit2
    have hlen2 : ¬ x2.length ≠ pdf2.length := by
      intro hcon
      unfold fit_from_pdf at hfit2
      rw [if_pos hcon] at hfit2
      exact absurd hfit2 (by simp)
    rcases hchk : scipy_cumulative_trapezoid pdf2 x2 with e | t
    · rw [fit_from_pdf_check_error st2 x2 pdf2 e hchk hlen2] at hfit2
      exact absurd hfit2 (by simp)
    · rw [fit_from_pdf_bind st2 x2 pdf2 t hchk hlen2] at hfit2
      rcases hfc : fit_from_cdf st2 x2 (t.map (· / t.getLastD 0))
        with e2 | r2
      · rw [hfc, Except.map] at hfit2
        exact absurd hfit2 (by simp)
      · rw [hfc, Except.map] at hfit2
        simp only [Except.ok.injEq] at hfit2
        rw [← hfit2]
        exact ⟨rfl, rfl⟩

/-- C9 (witness): fitting with `cdf = [0, 1, 2]` (final value 2, not close
to 1) hands back the buffer `[0, 1/2, 1]`, a changed array, with `x`
untouched. -/
theorem c9_fit_from_cdf_mutates_witness :
    npIsclose (([0, 1, 2] : List ℚ).getLastD 0) 1 = false ∧
    ((([0, 1, 2] : List ℚ).map (· / ([0, 1, 2] : List ℚ).getLastD 0)) ≠
      [0, 1, 2]) :=
  ⟨by decide,
    (c9_fit_from_cdf_mutates .new [0, 1, 2] [0, 1, 2]
      ⟨some (interp1d ([0, 1, 2].map (· / 2)) [0, 1, 2])⟩ [0, 1, 2]
      ([0, 1, 2].map (· / 2)) (by decide) ⟨1, by decide, by decide⟩
      (by decide)).2.2.1⟩

/-! ### C10: invariance under positive rescaling of the PDF -/

/-- The trapezoid areas scale linearly with the dependent values. -/
theorem trapzTerms_smul (c : ℚ) (pdf x : List ℚ) :
    trapzTerms (pdf.map (c * ·)) x = (trapzTerms pdf x).map (c * ·) := by
  unfold trapzTerms
  rw [List.map_zipWith, ← List.map_tail, List.zip_map, List.zipWith_map_right]
  congr 1
  funext xp yp
  simp only [Prod.map_fst, Prod.map_snd]
  ring

/-- Running sums scale linearly. -/
theorem scanl_add_smul (c : ℚ) (l : List ℚ) : ∀ b : ℚ,
    List.scanl (· + ·) (c * b) (l.map (c * ·)) =
      (List.scanl (· + ·) b l).map (c * ·) := by
  induction l with
  | nil => intro b; simp [List.scanl]
  | cons a t ih =>
    intro b
    simp only [List.map_cons, List.scanl, List.map]
    rw [← mul_add, ih]

/-- `cumulative_trapezoid` scales linearly with the dependent values. -/
theorem cumulative_trapezoid_smul (c : ℚ) (pdf x : List ℚ) :
    cumulative_trapezoid (pdf.map (c * ·)) x =
      (cumulative_trapezoid pdf x).map (c * ·) := by
  unfold cumulative_trapezoid
  rw [trapzTerms_smul]
  have h := scanl_add_smul c (trapzTerms pdf x) 0
  rw [mul_zero] at h
  exact h

/-- The normalized CDF of a nonzero-rescaled PDF is unchanged. -/
theorem normalizedCdf_smul (c : ℚ) (hc : c ≠ 0) (pdf x : List ℚ) :
    normalizedCdf (pdf.map (c * ·)) x = normalizedCdf pdf x := by
  unfold normalizedCdf
  rw [cumulative_trapezoid_smul,
    getLastD_map_zero (c * ·) (mul_zero c) (cumulative_trapezoid pdf x),
    List.map_map]
  congr 1
  funext a
  exact mul_div_mul_left a _ hc

/-- C10: for a positive scalar `c`, `fit_from_pdf` with `c * pdf` installs
the same mapping as with `pdf`, and `transform_pdf` returns the same output
for `c * pdf` as for `pdf`: the computed CDF is always divided by its final
value, cancelling the scale. -/
theorem c10_pdf_scaling (st m : InversePIT) (x pdf : List ℚ) (c : ℚ)
    (hc : 0 < c) (hlen : x.length = pdf.length) :
    ((fit_from_pdf st x (pdf.map (c * ·))).map Prod.fst =
      (fit_from_pdf st x pdf).map Prod.fst) ∧
    transform_pdf m x (pdf.map (c * ·)) = transform_pdf m x pdf := by
  have hc' : c ≠ 0 := ne_of_gt hc
  have hnorm : ((cumulative_trapezoid pdf x).map (c * ·)).map
      (· / ((cumulative_trapezoid pdf x).map (c * ·)).getLastD 0) =
      (cumulative_trapezoid pdf x).map
        (· / (cumulative_trapezoid pdf x).getLastD 0) := by
    have h := normalizedCdf_smul c hc' pdf x
    unfold normalizedCdf at h
    rwa [cumulative_trapezoid_smul] at h
  have hlen2 : ¬ x.length ≠ (pdf.map (c * ·)).length := by
    rw [List.length_map]
    omega
  have hlen1 : ¬ x.length ≠ pdf.length := by omega
  by_cases hok : ((x.length - 1 : ℕ) : ℤ) = (pdf.length : ℤ) - 1
  · have h1 : scipy_cumulative_trapezoid (pdf.map (c * ·)) x =
        .ok ((cumulative_trapezoid pdf x).map (c * ·)) := by
      unfold scipy_cumulative_trapezoid
      rw [List.length_map, if_pos hok, cumulative_trapezoid_smul]
    have h2 : scipy_cumulative_trapezoid pdf x =
        .ok (cumulative_trapezoid pdf x) := by
      unfold scipy_cumulative_trapezoid
      rw [if_pos hok]
    constructor
    · rw [fit_from_pdf_bind st x (pdf.map (c * ·)) _ h1 hlen2,
        fit_from_pdf_bind st x pdf _ h2 hlen1, hnorm]
      rcases hfc : fit_from_cdf st x ((cumulative_trapezoid pdf x).map
          (· / (cumulative_trapezoid pdf x).getLastD 0)) with e | r
      · rfl
      · rfl
    · rw [transform_pdf_bind m x (pdf.map (c * ·)) _ h1,
        transform_pdf_bind m x pdf _ h2, hnorm]
  · have h1 : scipy_cumulative_trapezoid (pdf.map (c * ·)) x =
        .error .valueError := by
      unfold scipy_cumulative_trapezoid
      rw [List.length_map, if_neg hok]
    have h2 : scipy_cumulative_trapezoid pdf x = .error .valueError := by
      unfold scipy_cumulative_trapezoid
      rw [if_neg hok]
    constructor
    · rw [fit_from_pdf_check_error st x (pdf.map (c * ·)) _ h1 hlen2,
        fit_from_pdf_check_error st x pdf _ h2 hlen1]
    · rw [transform_pdf_check_error m x (pdf.map (c * ·)) _ h1,
        transform_pdf_check_error m x pdf _ h2]

/-- C10 (witness): doubling a flat PDF changes neither the installed
mapping nor the transform output on a fitted mapper. -/
theorem c10_pdf_scaling_witness :
    ((fit_from_pdf .new [0, 1, 2] (([1, 1, 1] : List ℚ).map (2 * ·))).map
        Prod.fst =
      (fit_from_pdf .new [0, 1, 2] [1, 1, 1]).map Prod.fst) ∧
    transform_pdf ⟨some (interp1d [0, 1/2, 1] [0, 1, 2])⟩ [0, 1, 2]
        (([1, 1, 1] : List ℚ).map (2 * ·)) =
      transform_pdf ⟨some (interp1d [0, 1/2, 1] [0, 1, 2])⟩ [0, 1, 2]
        [1, 1, 1] :=
  c10_pdf_scaling .new ⟨some (interp1d [0, 1/2, 1] [0, 1, 2])⟩ [0, 1, 2]
    [1, 1, 1] 2 (by norm_num) rfl

/-! ### C4: shape preservation of the transforms (amended) -/

/-- `numpy.gradient` returns one derivative estimate per sample. -/
theorem gradientList_length (f x : List ℚ) :
    (gradientList f x).length = f.length := by
  unfold gradientList
  rw [List.length_map, List.length_range]

/-- C4 (amended): on a fitted mapper, `transform_cdf` returns the pair of
the mapped coordinates and the untouched input `cdf`, with matching
lengths, for any arguments; `transform_pdf` returns same-length arrays
whenever its same-length inputs have at least `edge_order + 1 = 3` samples
(below that, `numpy.gradient` raises `ValueError`: `c4_length2_raises`). -/
theorem c4_shape_preservation (m : InversePIT) (mp : Interp1d)
    (hm : m._cdf_map = some mp) (x cdf xp pdf : List ℚ)
    (hlen : xp.length = pdf.length) (h3 : 3 ≤ pdf.length) :
    (transform_cdf m x cdf = .ok (cdf.map (interpCall mp), cdf) ∧
      (cdf.map (interpCall mp)).length = cdf.length) ∧
    ∃ nx g, transform_pdf m xp pdf = .ok (nx, g) ∧
      nx.length = pdf.length ∧ g.length = pdf.length := by
  have hp1 : 1 ≤ pdf.length := by omega
  have hcl : (normalizedCdf pdf xp).length = pdf.length :=
    normalizedCdf_length pdf xp hlen.symm hp1
  refine ⟨⟨by unfold transform_cdf; rw [hm], by rw [List.length_map]⟩,
    (normalizedCdf pdf xp).map (interpCall mp),
    gradientList (normalizedCdf pdf xp)
      ((normalizedCdf pdf xp).map (interpCall mp)), ?_, ?_, ?_⟩
  · exact transform_pdf_run m mp hm xp pdf hlen h3
  · rw [List.length_map, hcl]
  · rw [gradientList_length, hcl]

/-- C4 (witness): concrete fitted mapper; `transform_cdf` on a length-3 CDF
and `transform_pdf` on a length-3 PDF both preserve lengths. -/
theorem c4_shape_preservation_witness :
    (transform_cdf ⟨some (interp1d [0, 1] [0, 1])⟩ [0] [0, 1/2, 1] =
        .ok (([0, 1/2, 1] : List ℚ).map (interpCall (interp1d [0, 1] [0, 1])),
          [0, 1/2, 1]) ∧
      ((([0, 1/2, 1] : List ℚ).map
        (interpCall (interp1d [0, 1] [0, 1]))).length =
          ([0, 1/2, 1] : List ℚ).length)) ∧
    ∃ nx g,
      transform_pdf ⟨some (interp1d [0, 1] [0, 1])⟩ [0, 1, 2] [1, 1, 1] =
        .ok (nx, g) ∧
      nx.length = ([1, 1, 1] : List ℚ).length ∧
      g.length = ([1, 1, 1] : List ℚ).length :=
  c4_shape_preservation ⟨some (interp1d [0, 1] [0, 1])⟩
    (interp1d [0, 1] [0, 1]) rfl [0] [0, 1/2, 1] [0, 1, 2] [1, 1, 1] rfl
    (by decide)

/-! ### C6: identity on a strictly increasing CDF (amended) -/

/-- Strictly increasing abscissas make the zipped knots sorted, so the
stable sort in `interp1d` leaves them untouched. -/
theorem interp1d_knots_of_sorted (c y : List ℚ)
    (hmono : c.Pairwise (· < ·)) : (interp1d c y).knots = c.zip y := by
  show List.insertionSort (fun p q => p.1 ≤ q.1) (c.zip y) = c.zip y
  apply List.Sorted.insertionSort_eq
  apply List.pairwise_iff_getElem.mpr
  intro i j hi hj hij
  have hi' : i < c.length := by rw [List.length_zip] at hi; omega
  have hj' : j < c.length := by rw [List.length_zip] at hj; omega
  rw [List.getElem_zip, List.getElem_zip]
  exact le_of_lt (List.pairwise_iff_getElem.mp hmono i j hi' hj' hij)

/-- In a strictly increasing list, the number of entries strictly below the
`i`-th entry is `i`. -/
theorem countP_lt_getD_of_sorted (c : List ℚ)
    (hmono : c.Pairwise (· < ·)) :
    ∀ i, i < c.length →
      c.countP (fun a => decide (a < c.getD i 0)) = i := by
  induction c with
  | nil => intro i hi; simp at hi
  | cons a t ih =>
    intro i hi
    obtain ⟨ha, ht⟩ := List.pairwise_cons.mp hmono
    rcases i with _ | i
    · have hz : t.countP (fun b => decide (b < a)) = 0 :=
        List.countP_eq_zero.mpr (fun b hb => by
          simp only [decide_eq_true_eq, not_lt]
          exact le_of_lt (ha b hb))
      rw [List.getD_cons_zero, List.countP_cons, hz, if_neg (by simp)]
    · have hmem : t.getD i 0 ∈ t := by
        rw [List.getD_eq_getElem t 0 (by simpa using hi)]
        exact List.getElem_mem _
      rw [List.getD_cons_succ, List.countP_cons,
        ih ht i (by simpa using hi),
        if_pos (by
          simp only [decide_eq_true_eq]
          exact ha _ hmem)]

/-- A predicate on the abscissa counts the same over the zipped knots as
over the abscissas. -/
theorem countP_zip_fst (c y : List ℚ) (hlen : c.length = y.length) (v : ℚ) :
    (c.zip y).countP (fun p => decide (p.1 < v)) =
      c.countP (fun a => decide (a < v)) := by
  induction c generalizing y with
  | nil => simp
  | cons a t ih =>
    rcases y with _ | ⟨b, s⟩
    · simp at hlen
    · rw [List.zip_cons_cons, List.countP_cons, List.countP_cons,
        ih s (by simpa using hlen)]

/-- Reading a zipped list componentwise. -/
theorem getD_zip (c y : List ℚ) (hlen : c.length = y.length) (k : ℕ)
    (hk : k < c.length) :
    (c.zip y).getD k (0, 0) = (c.getD k 0, y.getD k 0) := by
  rw [List.getD_eq_getElem (c.zip y) (0, 0)
      (by rw [List.length_zip, hlen, min_self]; exact hlen ▸ hk),
    List.getElem_zip, List.getD_eq_getElem c 0 hk,
    List.getD_eq_getElem y 0 (hlen ▸ hk)]

/-- Querying the linear interpolant exactly at the `i`-th knot abscissa of
a strictly increasing knot list returns the `i`-th ordinate: the
searchsorted rank of the query is `i`, the clipped segment is `[i-1, i]`
(or `[0, 1]` at the left end), and the linear formula collapses. -/
theorem interpCall_at_knot (c y : List ℚ) (hlen : c.length = y.length)
    (hmono : c.Pairwise (· < ·)) (h2 : 2 ≤ c.length)
    (i : ℕ) (hi : i < c.length) :
    interpCall (interp1d c y) (c.getD i 0) = y.getD i 0 := by
  have hknots := interp1d_knots_of_sorted c y hmono
  have hzlen : (c.zip y).length = c.length := by
    rw [List.length_zip, hlen, min_self]
  have hrank : (c.zip y).countP (fun p => decide (p.1 < c.getD i 0)) = i := by
    rw [countP_zip_fst c y hlen, countP_lt_getD_of_sorted c hmono i hi]
  unfold interpCall
  simp only [hknots, hzlen, hrank]
  rw [if_neg (by omega)]
  rcases Nat.eq_zero_or_pos i with rfl | hip
  · have hj : min (max 0 1) (c.length - 1) = 1 := by omega
    simp only [hj]
    rw [show (1 : ℕ) - 1 = 0 by rfl,
      getD_zip c y hlen 0 (by omega), getD_zip c y hlen 1 (by omega)]
    dsimp only
    rw [sub_self, mul_zero, zero_add]
  · have hj : min (max i 1) (c.length - 1) = i := by omega
    simp only [hj]
    have him : i - 1 < c.length := Nat.lt_of_le_of_lt (Nat.sub_le i 1) hi
    rw [getD_zip c y hlen (i - 1) him, getD_zip c y hlen i hi]
    have hlt : c.getD (i - 1) 0 < c.getD i 0 := by
      rw [List.getD_eq_getElem c 0 him, List.getD_eq_getElem c 0 hi]
      exact List.pairwise_iff_getElem.mp hmono (i - 1) i him hi
        (Nat.sub_lt hip Nat.one_pos)
    have hne : c.getD i 0 - c.getD (i - 1) 0 ≠ 0 :=
      sub_ne_zero_of_ne (ne_of_gt hlt)
    dsimp only
    rw [div_mul_cancel₀ _ hne, sub_add_cancel]

/-- C6 (amended): for a strictly increasing CDF with positive final value
sampled on at least two points, fitting and then transforming the same
(post-fit) arrays is exactly the identity on the coordinates: the stored
knots are the query values themselves, and linear interpolation at a knot
returns its own ordinate. -/
theorem c6_identity (st : InversePIT) (x cdf : List ℚ)
    (hlen : x.length = cdf.length) (h2 : 2 ≤ cdf.length)
    (hmono : List.Chain' (· < ·) cdf) (hpos : 0 < cdf.getLastD 0) :
    fit_from_cdf st x cdf =
      .ok (⟨some (interp1d (postCdf cdf) x)⟩, x, postCdf cdf) ∧
    transform_cdf ⟨some (interp1d (postCdf cdf) x)⟩ x (postCdf cdf) =
      .ok (x, postCdf cdf) := by
  have hne : cdf ≠ [] := by
    intro hcon; rw [hcon] at h2; simp at h2
  have hpair : cdf.Pairwise (· < ·) := List.chain'_iff_pairwise.mp hmono
  have hpp : (postCdf cdf).Pairwise (· < ·) := by
    unfold postCdf
    split
    · exact hpair
    · rw [List.pairwise_map]
      exact hpair.imp (fun hab => (div_lt_div_iff_of_pos_right hpos).mpr hab)
  have hplen : (postCdf cdf).length = cdf.length := by
    unfold postCdf
    split
    · rfl
    · rw [List.length_map]
  have hmap : (postCdf cdf).map (interpCall (interp1d (postCdf cdf) x)) =
      x := by
    apply List.ext_getElem
    · rw [List.length_map, hplen, hlen]
    · intro k h1 h2'
      rw [List.getElem_map]
      have hk : k < (postCdf cdf).length := by
        rw [List.length_map] at h1; exact h1
      have hcall := interpCall_at_knot (postCdf cdf) x
        (by rw [hplen, hlen]) hpp (by omega) k hk
      rw [List.getD_eq_getElem _ _ hk, List.getD_eq_getElem x 0 h2']
        at hcall
      exact hcall
  refine ⟨fit_from_cdf_run st x cdf hlen hne, ?_⟩
  show Except.ok
      ((postCdf cdf).map (interpCall (interp1d (postCdf cdf) x)),
        postCdf cdf) = _
  rw [hmap]

/-- C6 (witness): fitting `x = [0,1,2]` against its strictly increasing CDF
`[0, 1/2, 1]` and transforming the same pair returns the original `x`
exactly. -/
theorem c6_identity_witness :
    fit_from_cdf .new [0, 1, 2] [0, 1/2, 1] =
      .ok (⟨some (interp1d (postCdf [0, 1/2, 1]) [0, 1, 2])⟩, [0, 1, 2],
        postCdf [0, 1/2, 1]) ∧
    transform_cdf ⟨some (interp1d (postCdf [0, 1/2, 1]) [0, 1, 2])⟩
        [0, 1, 2] (postCdf [0, 1/2, 1]) =
      .ok ([0, 1, 2], postCdf [0, 1/2, 1]) :=
  c6_identity .new [0, 1, 2] [0, 1/2, 1] rfl (by decide)
    (by norm_num [List.chain'_cons]) (by decide)

/-! ### C7: NaN entries at flat transformed coordinates (amended) -/

/-- NaN absorbs on the left of addition. -/
theorem nan_add (v : FloatVal) : FloatVal.nan + v = .nan := by
  show FloatVal.add .nan v = .nan
  cases v <;> rfl

/-- NaN absorbs on the right of addition. -/
theorem add_nan (v : FloatVal) : v + FloatVal.nan = .nan := by
  show FloatVal.add v .nan = .nan
  cases v <;> rfl

/-- NaN absorbs in multiplication. -/
theorem nan_mul (v : FloatVal) : FloatVal.nan * v = .nan := by
  show FloatVal.mul .nan v = .nan
  cases v <;> rfl

/-- Opposite infinities cancel to NaN. -/
theorem ninf_add_pinf : FloatVal.ninf + FloatVal.pinf = .nan := rfl

/-- A finite value plus negative infinity is negative infinity. -/
theorem fin_add_ninf (a : ℚ) : fv a + FloatVal.ninf = .ninf := rfl

/-- Finite products are exact. -/
theorem fin_mul_fin (a b : ℚ) : fv a * fv b = fv (a * b) := rfl

/-- Negative infinity times a positive finite value. -/
theorem ninf_mul_pos {b : ℚ} (hb : 0 < b) :
    FloatVal.ninf * fv b = .ninf := by
  show FloatVal.mul .ninf (.fin b) = .ninf
  simp only [FloatVal.mul]
  rw [if_pos hb]

/-- Positive infinity times a positive finite value. -/
theorem pinf_mul_pos {b : ℚ} (hb : 0 < b) :
    FloatVal.pinf * fv b = .pinf := by
  show FloatVal.mul .pinf (.fin b) = .pinf
  simp only [FloatVal.mul]
  rw [if_pos hb]

/-- Negative infinity times finite zero is NaN (IEEE `inf * 0`). -/
theorem ninf_mul_zero : FloatVal.ninf * fv 0 = .nan := by
  show FloatVal.mul .ninf (.fin 0) = .nan
  simp only [FloatVal.mul]
  norm_num

/-- Division of a positive finite value by zero. -/
theorem fdiv_zero_pos {a : ℚ} (ha : 0 < a) :
    (fv a).fdiv (fv 0) = .pinf := by
  show FloatVal.fdiv (.fin a) (.fin 0) = .pinf
  simp only [FloatVal.fdiv]
  rw [if_neg (by simp), if_pos ha]

/-- Division of a negative finite value by zero. -/
theorem fdiv_zero_neg {a : ℚ} (ha : a < 0) :
    (fv a).fdiv (fv 0) = .ninf := by
  show FloatVal.fdiv (.fin a) (.fin 0) = .ninf
  simp only [FloatVal.fdiv]
  rw [if_neg (by simp), if_neg (not_lt.mpr (le_of_lt ha)), if_pos ha]

/-- `0 / 0` is NaN. -/
theorem fdiv_zero_zero : (fv 0).fdiv (fv 0) = .nan := by
  show FloatVal.fdiv (.fin 0) (.fin 0) = .nan
  simp only [FloatVal.fdiv]
  norm_num

/-- Division by a nonzero finite value is exact. -/
theorem fdiv_fin {a b : ℚ} (hb : b ≠ 0) :
    (fv a).fdiv (fv b) = fv (a / b) := by
  show FloatVal.fdiv (.fin a) (.fin b) = .fin (a / b)
  simp only [FloatVal.fdiv]
  rw [if_pos hb]

/-- The degenerate combination `-inf * f0 + inf * f1 + finite` is NaN for
`0 ≤ f0 ≤ f1`. -/
theorem combo_left (f0 f1 w : ℚ) (h0 : 0 ≤ f0) (h01 : f0 ≤ f1) :
    FloatVal.ninf * fv f0 + FloatVal.pinf * fv f1 + fv w = .nan := by
  rcases eq_or_lt_of_le h0 with rfl | hf0
  · rw [ninf_mul_zero, nan_add, nan_add]
  · rw [ninf_mul_pos hf0, pinf_mul_pos (lt_of_lt_of_le hf0 h01),
      ninf_add_pinf, nan_add]

/-- The degenerate combination `finite + -inf * f1 + inf * f2` is NaN for
`0 ≤ f1 ≤ f2`. -/
theorem combo_right (f1 f2 w : ℚ) (h1 : 0 ≤ f1) (h12 : f1 ≤ f2) :
    fv w + FloatVal.ninf * fv f1 + FloatVal.pinf * fv f2 = .nan := by
  rcases eq_or_lt_of_le h1 with rfl | hf1
  · rw [ninf_mul_zero, add_nan, nan_add]
  · rw [ninf_mul_pos hf1, fin_add_ninf,
      pinf_mul_pos (lt_of_lt_of_le hf1 h12), ninf_add_pinf]

/-- Interior gradient entry with a vanishing left spacing is NaN when the
differenced values are nonnegative and non-decreasing there. -/
theorem gradInterior_dx1_zero (dx2 f0 f1 f2 : ℚ) (h2 : 0 ≤ dx2)
    (h0 : 0 ≤ f0) (h01 : f0 ≤ f1) :
    gradInterior 0 dx2 f0 f1 f2 = .nan := by
  unfold gradInterior
  rcases eq_or_lt_of_le h2 with rfl | hpos
  · simp only [neg_zero, zero_mul, fdiv_zero_zero, nan_mul, nan_add]
  · simp only [zero_mul, zero_add, sub_zero]
    rw [fdiv_zero_neg (neg_lt_zero.mpr hpos), fdiv_zero_pos hpos,
      fdiv_fin (mul_pos hpos hpos).ne', fin_mul_fin]
    exact combo_left f0 f1 _ h0 h01

/-- Interior gradient entry with a vanishing right spacing is NaN when the
differenced values are nonnegative and non-decreasing there. -/
theorem gradInterior_dx2_zero (dx1 f0 f1 f2 : ℚ) (h1dx : 0 ≤ dx1)
    (h1 : 0 ≤ f1) (h12 : f1 ≤ f2) :
    gradInterior dx1 0 f0 f1 f2 = .nan := by
  unfold gradInterior
  rcases eq_or_lt_of_le h1dx with rfl | hpos
  · simp only [neg_zero, zero_mul, fdiv_zero_zero, nan_mul, nan_add]
  · simp only [neg_zero, add_zero, zero_sub, mul_zero, zero_mul]
    rw [fdiv_fin (mul_pos hpos hpos).ne', fin_mul_fin,
      fdiv_zero_neg (neg_lt_zero.mpr hpos), fdiv_zero_pos hpos]
    exact combo_right f1 f2 _ h1 h12

/-- Left-edge gradient entry with a vanishing first spacing is NaN when the
differenced values are nonnegative and non-decreasing there. -/
theorem gradLeft_dx1_zero (dx2 f0 f1 f2 : ℚ) (h2 : 0 ≤ dx2)
    (h0 : 0 ≤ f0) (h01 : f0 ≤ f1) :
    gradLeft 0 dx2 f0 f1 f2 = .nan := by
  unfold gradLeft
  rcases eq_or_lt_of_le h2 with rfl | hpos
  · simp only [mul_zero, add_zero, neg_zero, zero_mul, fdiv_zero_zero,
      nan_mul, nan_add]
  · simp only [mul_zero, zero_add, zero_mul, neg_zero]
    rw [fdiv_zero_neg (neg_lt_zero.mpr hpos), fdiv_zero_pos hpos,
      fdiv_fin (mul_pos hpos hpos).ne', fin_mul_fin]
    exact combo_left f0 f1 _ h0 h01

/-- Right-edge gradient entry with a vanishing last spacing is NaN when the
differenced values are nonnegative and non-decreasing there. -/
theorem gradRight_dx2_zero (dx1 f0 f1 f2 : ℚ) (h1dx : 0 ≤ dx1)
    (h1 : 0 ≤ f1) (h12 : f1 ≤ f2) :
    gradRight dx1 0 f0 f1 f2 = .nan := by
  unfold gradRight
  rcases eq_or_lt_of_le h1dx with rfl | hpos
  · simp only [add_zero, mul_zero, zero_mul, fdiv_zero_zero, nan_mul,
      nan_add]
  · simp only [add_zero, zero_add, mul_zero, zero_mul]
    rw [fdiv_fin (mul_pos hpos hpos).ne', fin_mul_fin,
      fdiv_zero_neg (neg_lt_zero.mpr hpos), fdiv_zero_pos hpos]
    exact combo_right f1 f2 _ h1 h12

/-- Reading the gradient array at a valid index. -/
theorem gradientList_getD (f x : List ℚ) (k : ℕ) (hk : k < f.length) :
    (gradientList f x).getD k (fv 0) = gradientAt f x k := by
  unfold gradientList
  rw [List.getD_eq_getElem _ _
      (by rw [List.length_map, List.length_range]; exact hk),
    List.getElem_map, List.getElem_range]

/-- The left-edge branch of `gradientAt` on a non-uniform grid. -/
theorem gradientAt_left (f x : List ℚ)
    (hnu : uniformSpacing x f.length = false) :
    gradientAt f x 0 =
      gradLeft (npDiffAt x 0) (npDiffAt x 1) (f.getD 0 0) (f.getD 1 0)
        (f.getD 2 0) := by
  unfold gradientAt
  simp [hnu]

/-- The right-edge branch of `gradientAt` on a non-uniform grid. -/
theorem gradientAt_right (f x : List ℚ)
    (hnu : uniformSpacing x f.length = false) (h0 : f.length - 1 ≠ 0) :
    gradientAt f x (f.length - 1) =
      gradRight (npDiffAt x (f.length - 3)) (npDiffAt x (f.length - 2))
        (f.getD (f.length - 3) 0) (f.getD (f.length - 2) 0)
        (f.getD (f.length - 1) 0) := by
  unfold gradientAt
  simp [hnu, h0]

/-- The interior branch of `gradientAt` on a non-uniform grid. -/
theorem gradientAt_interior (f x : List ℚ) (i : ℕ)
    (hnu : uniformSpacing x f.length = false) (h0 : i ≠ 0)
    (hn : i ≠ f.length - 1) :
    gradientAt f x i =
      gradInterior (npDiffAt x (i - 1)) (npDiffAt x i) (f.getD (i - 1) 0)
        (f.getD i 0) (f.getD (i + 1) 0) := by
  unfold gradientAt
  simp [hnu, h0, hn]

/-- Monotone reading of a `Pairwise (· ≤ ·)` list via `getD`. -/
theorem getD_mono_of_pairwise_le (c : List ℚ) (h : c.Pairwise (· ≤ ·))
    (i j : ℕ) (hij : i ≤ j) (hj : j < c.length) :
    c.getD i 0 ≤ c.getD j 0 := by
  rcases eq_or_lt_of_le hij with rfl | hlt
  · exact le_refl _
  · have hi : i < c.length := lt_of_le_of_lt hij hj
    rw [List.getD_eq_getElem c 0 hi, List.getD_eq_getElem c 0 hj]
    exact List.pairwise_iff_getElem.mp h i j hi hj hlt

/-- Non-decreasing coordinates have nonnegative forward differences. -/
theorem npDiffAt_nonneg (l : List ℚ) (h : l.Pairwise (· ≤ ·)) (j : ℕ)
    (hj : j + 1 < l.length) : 0 ≤ npDiffAt l j := by
  unfold npDiffAt
  have := getD_mono_of_pairwise_le l h j (j + 1) (Nat.le_succ j) hj
  linarith

/-- The head of a normalized trapezoidal CDF is 0 (the `initial=0` anchor
divided by the final value). -/
theorem normalizedCdf_head (pdf x : List ℚ) :
    (normalizedCdf pdf x).getD 0 0 = 0 := by
  unfold normalizedCdf cumulative_trapezoid
  cases trapzTerms pdf x <;> simp [List.scanl, zero_div]

/-- Core of the amended C7: on a non-uniform grid of non-decreasing
coordinates, with a non-decreasing nonnegative value array starting at 0,
both gradient entries adjacent to a pair of equal consecutive coordinates
are NaN. -/
theorem gradientAt_nan_of_flat (f nx : List ℚ)
    (hflen : nx.length = f.length) (hn3 : 3 ≤ f.length)
    (hf : f.Pairwise (· ≤ ·)) (hf0 : f.getD 0 0 = 0)
    (hnx : nx.Pairwise (· ≤ ·))
    (hnu : uniformSpacing nx f.length = false)
    (i : ℕ) (hi1 : i + 1 < f.length)
    (heq : nx.getD i 0 = nx.getD (i + 1) 0) :
    gradientAt f nx i = .nan ∧ gradientAt f nx (i + 1) = .nan := by
  have hdx0 : npDiffAt nx i = 0 := by
    unfold npDiffAt
    rw [heq, sub_self]
  have hF : ∀ a b : ℕ, a ≤ b → b < f.length →
      f.getD a 0 ≤ f.getD b 0 := fun a b hab hb =>
    getD_mono_of_pairwise_le f hf a b hab hb
  have hFnn : ∀ k, k < f.length → 0 ≤ f.getD k 0 := fun k hk => by
    have h := hF 0 k (Nat.zero_le k) hk
    rwa [hf0] at h
  have hdxnn : ∀ j, j + 1 < f.length → 0 ≤ npDiffAt nx j := fun j hj =>
    npDiffAt_nonneg nx hnx j (by omega)
  constructor
  · rcases Nat.eq_zero_or_pos i with rfl | hip
    · rw [gradientAt_left f nx hnu, hdx0]
      exact gradLeft_dx1_zero _ _ _ _ (hdxnn 1 (by omega))
        (hFnn 0 (by omega)) (hF 0 1 (by omega) (by omega))
    · rw [gradientAt_interior f nx i hnu (by omega) (by omega), hdx0]
      exact gradInterior_dx2_zero _ _ _ _ (hdxnn (i - 1) (by omega))
        (hFnn i (by omega)) (hF i (i + 1) (by omega) hi1)
  · rcases eq_or_ne (i + 1) (f.length - 1) with he | hne
    · rw [he, gradientAt_right f nx hnu (by omega)]
      have h2i : f.length - 2 = i := by omega
      rw [h2i, hdx0]
      exact gradRight_dx2_zero _ _ _ _ (hdxnn (f.length - 3) (by omega))
        (hFnn i (by omega)) (h2i ▸ hF (f.length - 2) (f.length - 1)
          (by omega) (by omega))
    · rw [gradientAt_interior f nx (i + 1) hnu (by omega) hne,
        show i + 1 - 1 = i by omega, hdx0]
      exact gradInterior_dx1_zero _ _ _ _ (hdxnn (i + 1) (by omega))
        (hFnn i (by omega)) (hF i (i + 1) (by omega) hi1)

/-- C7 (amended): in `transform_pdf` on a fitted mapper with same-length
inputs of at least 3 samples, when the computed normalized CDF is
non-decreasing and the transformed coordinates are non-decreasing but not
uniformly spaced, no error is raised and every output PDF entry adjacent
to a pair of equal consecutive transformed coordinates is NaN.  (When all
spacings are equal — e.g. fully collapsed coordinates — entries can be
positive infinity instead: `c7_uniform_flat_gives_inf`.) -/
theorem c7_flat_coordinates_nan (m : InversePIT) (mp : Interp1d)
    (hm : m._cdf_map = some mp) (x pdf : List ℚ)
    (hlen : x.length = pdf.length) (h3 : 3 ≤ pdf.length)
    (hcdf : List.Chain' (· ≤ ·) (normalizedCdf pdf x))
    (hnx : List.Chain' (· ≤ ·)
      ((normalizedCdf pdf x).map (interpCall mp)))
    (hnu : uniformSpacing ((normalizedCdf pdf x).map (interpCall mp))
      (normalizedCdf pdf x).length = false) :
    transform_pdf m x pdf =
      .ok ((normalizedCdf pdf x).map (interpCall mp),
        gradientList (normalizedCdf pdf x)
          ((normalizedCdf pdf x).map (interpCall mp))) ∧
    ∀ i, i + 1 < pdf.length →
      ((normalizedCdf pdf x).map (interpCall mp)).getD i 0 =
        ((normalizedCdf pdf x).map (interpCall mp)).getD (i + 1) 0 →
      (gradientList (normalizedCdf pdf x)
          ((normalizedCdf pdf x).map (interpCall mp))).getD i (fv 0) =
        .nan ∧
      (gradientList (normalizedCdf pdf x)
          ((normalizedCdf pdf x).map (interpCall mp))).getD (i + 1)
        (fv 0) = .nan := by
  have hp1 : 1 ≤ pdf.length := by omega
  have hcl : (normalizedCdf pdf x).length = pdf.length :=
    normalizedCdf_length pdf x hlen.symm hp1
  constructor
  · exact transform_pdf_run m mp hm x pdf hlen h3
  · intro i hi1 heq
    have hk1 : i < (normalizedCdf pdf x).length := by omega
    have hk2 : i + 1 < (normalizedCdf pdf x).length := by omega
    rw [gradientList_getD _ _ i hk1, gradientList_getD _ _ (i + 1) hk2]
    exact gradientAt_nan_of_flat (normalizedCdf pdf x)
      ((normalizedCdf pdf x).map (interpCall mp))
      (by rw [List.length_map]) (by omega)
      (List.chain'_iff_pairwise.mp hcdf) (normalizedCdf_head pdf x)
      (List.chain'_iff_pairwise.mp hnx) hnu i (by omega) heq

/-- C7 (witness): a mapper whose inverse-CDF map is flat on the first
quarter of probability mass sends the test CDF `[0, 1/4, 1/2, 1]` to the
coordinates `[0, 0, 1, 3]`; the output PDF entries at the two indices
adjacent to the collapsed pair are NaN. -/
theorem c7_flat_coordinates_nan_witness :
    (uniformSpacing
        ((normalizedCdf [1, 1, 1, 3] [0, 1, 2, 3]).map
          (interpCall (interp1d [0, 1/4, 1/2, 1] [0, 0, 1, 3])))
        (normalizedCdf [1, 1, 1, 3] [0, 1, 2, 3]).length = false) ∧
    ((gradientList (normalizedCdf [1, 1, 1, 3] [0, 1, 2, 3])
        ((normalizedCdf [1, 1, 1, 3] [0, 1, 2, 3]).map
          (interpCall (interp1d [0, 1/4, 1/2, 1] [0, 0, 1, 3])))).getD 0
        (fv 0) = .nan ∧
      (gradientList (normalizedCdf [1, 1, 1, 3] [0, 1, 2, 3])
        ((normalizedCdf [1, 1, 1, 3] [0, 1, 2, 3]).map
          (interpCall (interp1d [0, 1/4, 1/2, 1] [0, 0, 1, 3])))).getD
        (0 + 1) (fv 0) = .nan) :=
  ⟨by decide,
    (c7_flat_coordinates_nan
      ⟨some (interp1d [0, 1/4, 1/2, 1] [0, 0, 1, 3])⟩
      (interp1d [0, 1/4, 1/2, 1] [0, 0, 1, 3]) rfl [0, 1, 2, 3]
      [1, 1, 1, 3] rfl (by norm_num)
      (by
        have h : normalizedCdf [1, 1, 1, 3] [0, 1, 2, 3] =
            [0, 1/4, 1/2, 1] := by decide
        rw [h]
        norm_num [List.chain'_cons])
      (by
        have h : (normalizedCdf [1, 1, 1, 3] [0, 1, 2, 3]).map
            (interpCall (interp1d [0, 1/4, 1/2, 1] [0, 0, 1, 3])) =
            [0, 0, 1, 3] := by decide
        rw [h]
        norm_num [List.chain'_cons])
      (by decide)).2 0 (by norm_num) (by decide)⟩

/-! ### Counterexamples for C4, C5, C6, C7 -/

/-- C4 (counterexample): `transform_pdf` does not always return same-length
arrays — on length-2 inputs (even on a fitted mapper) `numpy.gradient` with
`edge_order=2` raises `ValueError`, so nothing is returned at all. -/
theorem c4_length2_raises :
    transform_pdf ⟨some (interp1d [0, 1] [0, 1])⟩ [0, 1] [1, 1] =
      .error .valueError := by
  rfl

/-- C5 (counterexample): a successful `fit_from_cdf` call whose stored CDF
does not end within tolerance of 1.  With `cdf = [0, 0]` the fit succeeds,
the normalization divides by the final value 0, and the CDF actually handed
to `interp1d` ends at 0 (exact-division model; IEEE floats give NaN —
either way not close to 1). -/
theorem c5_zero_final_cdf :
    fit_from_cdf .new [0, 1] [0, 0] =
      .ok (⟨some (interp1d [0, 0] [0, 1])⟩, [0, 1], [0, 0]) ∧
    npIsclose (([0, 0] : List ℚ).getLastD 0) 1 = false := by
  exact ⟨by decide, by decide⟩

/-- C6 (counterexample): fitting a valid but non-strictly-increasing CDF
(flat between 1/2 and 1/2) and transforming the same pair is not the
identity: the returned coordinates are `[0, 1, 1, 3]`, off by 1 from the
original `x = [0, 1, 2, 3]` at index 2 — far beyond interpolation
tolerance. -/
theorem c6_flat_cdf_not_identity :
    fit_from_cdf .new [0, 1, 2, 3] [0, 1/2, 1/2, 1] =
      .ok (⟨some (interp1d [0, 1/2, 1/2, 1] [0, 1, 2, 3])⟩,
        [0, 1, 2, 3], [0, 1/2, 1/2, 1]) ∧
    transform_cdf ⟨some (interp1d [0, 1/2, 1/2, 1] [0, 1, 2, 3])⟩
      [0, 1, 2, 3] [0, 1/2, 1/2, 1] = .ok ([0, 1, 1, 3], [0, 1/2, 1/2, 1]) ∧
    ([0, 1, 1, 3] : List ℚ).getD 2 0 = 1 ∧
    ([0, 1, 2, 3] : List ℚ).getD 2 0 = 2 := by
  refine ⟨by decide, by decide, by decide, by decide⟩

/-- C7 (counterexample): when the transformed coordinates collapse to a
uniformly spaced (here: constant) grid, the degenerate entries are positive
infinity, not NaN — `numpy.gradient` takes its uniform-spacing branch and
computes `(f[2] - f[0]) / (2 * 0) = +inf` at index 1, whose neighbours are
equal transformed coordinates. -/
theorem c7_uniform_flat_gives_inf :
    transform_pdf ⟨some (interp1d [0, 1/2, 1] [5, 5, 5])⟩ [0, 1, 2] [1, 1, 1] =
      .ok ([5, 5, 5], [.nan, .pinf, .nan]) ∧
    ([5, 5, 5] : List ℚ).getD 0 0 = ([5, 5, 5] : List ℚ).getD 1 0 ∧
    FloatVal.pinf ≠ FloatVal.nan := by
  refine ⟨by decide, by decide, by decide⟩

end InvPit
